import Mathlib

set_option maxRecDepth 40000

/-!
# Verification of the K-256 DHKEM building block (`src/dhkex/ecdh_k256.rs`)

This development embeds the protocol-correctness layer of the ECDH-K256
module of an HPKE implementation:

* byte-level big-endian encodings of scalars and uncompressed SEC1 points,
  together with the validating decoders `PrivateKey.from_bytes` and
  `PublicKey.from_bytes`;
* the group-level operations `sk_to_pk`, `dh` and the deterministic
  `derive_keypair` rejection-sampling loop.

The elliptic-curve backend (the `k256` crate) is an external black box.  Its
serialization interface (SEC1 uncompressed points, big-endian scalars,
range/curve/identity validation) is embedded concretely.  Its group interface
is a cyclic group of prime order `n` (secp256k1 has cofactor 1); a cyclic
group of order `n` is isomorphic to `ZMod n` with the generator mapped to `1`,
so group elements are represented by their discrete logarithms: the identity
is `0`, `sk_to_pk sk = sk·G` is the residue `sk : ZMod n`, and the DH combine
`pk^sk` is scalar multiplication, i.e. multiplication in `ZMod n`.

The proofs about `dh` require the primality of the secp256k1 group order,
which is established below by a chain of Lucas (Pratt) certificates, checked
by kernel computation via a verified fast modular exponentiation.
-/

/-! ## Bytes and big-endian encodings -/

/-- A byte string, as handled by the Rust `&[u8]` slices. -/
abbrev Bytes : Type := List (Fin 256)

/-- Big-endian interpretation of a byte string as a natural number (`OS2IP`).
This is how the backend's `SecretKey::from_be_bytes` and the SEC1 field
element decoder read fixed-width integers. -/
def bytesToNatBE (b : Bytes) : Nat :=
  b.foldl (fun acc d => acc * 256 + d.val) 0

/-- Fixed-width big-endian encoding of a natural number (`I2OSP`), producing
exactly `k` bytes. -/
def natToBytesBE : Nat → Nat → Bytes
  | 0, _ => []
  | k + 1, m =>
    natToBytesBE k (m / 256) ++ [⟨m % 256, Nat.mod_lt m (by norm_num)⟩]

/-! ## Verified fast modular exponentiation

Used to check the Lucas primality certificates by kernel computation.
`powModF m fuel a e` computes `a ^ e % m` by binary exponentiation, with a
structural fuel so the kernel can evaluate it; `fuel` must exceed the bit
length of `e`. -/

def powModF (m : Nat) : Nat → Nat → Nat → Nat
  | 0, _, _ => 1 % m
  | fuel + 1, a, e =>
    if e = 0 then 1 % m
    else
      let h := powModF m fuel (a * a % m) (e / 2)
      if e % 2 = 1 then h * a % m else h

/-! ## Curve constants -/

/-- The order of the secp256k1 group (prime; the curve has cofactor 1).  This
is the modulus of the scalar field, i.e. the `p` of the source's "a scalar in
the range `[1,p)`" invariant. -/
def nOrder : Nat :=
  115792089237316195423570985008687907852837564279074904382605163141518161494337

/-- The prime of the base field of secp256k1 (`2^256 - 2^32 - 977`), bounding
the affine coordinates accepted by the SEC1 field-element decoder. -/
def qField : Nat :=
  115792089237316195423570985008687907853269984665640564039457584007908834671663

/-! ## Errors

Modelled from the spec: the crate-level error type is declared outside the
source file under verification.  Per the spec's error taxonomy (§7), every
`from_bytes` validation failure — wrong length, zero scalar, scalar not below
the group order, point not on the curve, identity point — surfaces as
`ValidationError`. -/

inductive HpkeError where
  | ValidationError
deriving DecidableEq

/-- Modelled from the spec: `enforce_equal_len` of the `util` module (not
under `src/`).  It requires the exact expected length and fails with the
validation error of the spec's §7 taxonomy otherwise; the decoders call it
before attempting any point or scalar decoding. -/
def enforce_equal_len (expected actual : Nat) : Except HpkeError Unit :=
  if actual = expected then .ok () else .error .ValidationError

/-- The error type of the `dh` operation (`DhError` of the `dhkex` module).
Modelled from the spec: `dh` is total given its input invariants, but its
signature carries an error branch. -/
inductive DhError where
  | dhError
deriving DecidableEq

/-- Decidable equality for `Except`, needed to evaluate the embedded
fallible operations on concrete inputs. -/
instance {e : Type u} {a : Type v} [DecidableEq e] [DecidableEq a] :
    DecidableEq (Except e a) := fun x y =>
  match x, y with
  | .error u, .error v =>
    if h : u = v then .isTrue (by rw [h]) else .isFalse (fun hc => h (Except.error.inj hc))
  | .ok u, .ok v =>
    if h : u = v then .isTrue (by rw [h]) else .isFalse (fun hc => h (Except.ok.inj hc))
  | .error _, .ok _ => .isFalse (fun hc => Except.noConfusion hc)
  | .ok _, .error _ => .isFalse (fun hc => Except.noConfusion hc)

/-! ## Private keys (`PrivateKey`, embedding `k256::SecretKey`)

An ECDH-K256 private key is a scalar in the range `[1, nOrder)`: never zero
and strictly below the group order.  The Rust type maintains this invariant
by construction (it is only built through validating constructors), which the
embedding expresses as a subtype. -/

abbrev PrivateKey : Type := { s : Nat // 1 ≤ s ∧ s < nOrder }

/-- Embeds `<PrivateKey as Serializable>::to_bytes`: the fixed-width (`Nsk = 32`)
big-endian encoding of the scalar (`SecretKey::to_be_bytes`). -/
def PrivateKey.to_bytes (sk : PrivateKey) : Bytes :=
  natToBytesBE 32 sk.val

/-- Embeds `<PrivateKey as Deserializable>::from_bytes`: checks the length against
`Nsk = 32` via `enforce_equal_len`, then decodes a big-endian scalar through
`k256::SecretKey::from_be_bytes`, which rejects zero and any value not below
the group order (mapped to `ValidationError`). -/
def PrivateKey.from_bytes (b : Bytes) : Except HpkeError PrivateKey :=
  match enforce_equal_len 32 b.length with
  | .error e => .error e
  | .ok _ =>
    if h : 1 ≤ bytesToNatBE b ∧ bytesToNatBE b < nOrder then
      .ok ⟨bytesToNatBE b, h⟩
    else
      .error .ValidationError

/-! ## Public keys, serialization view (`PublicKey`, embedding `k256::PublicKey`)

The backend's `k256::PublicKey` is an affine curve point, never the point at
infinity.  Serialization is always the uncompressed SEC1 form: a `0x04` tag
byte followed by the 32-byte big-endian `x` and `y` coordinates. -/

/-- The secp256k1 curve equation `y² = x³ + 7` over the base field, together
with the range conditions enforced by the SEC1 field-element decoder. -/
def onCurve (x y : Nat) : Prop :=
  x < qField ∧ y < qField ∧ (y * y) % qField = (x * x * x + (7 : Nat)) % qField

instance (x y : Nat) : Decidable (onCurve x y) := by
  unfold onCurve
  infer_instance

abbrev PublicKey : Type := { p : Nat × Nat // onCurve p.1 p.2 }

/-- The full curve group carrier, for stating identity-element facts: a point
is either the point at infinity or an affine point. -/
inductive CurvePoint where
  | infinity
  | affine (x y : Nat)
deriving DecidableEq

/-- The group element a `PublicKey` denotes; by construction it is an affine
point, never the point at infinity. -/
def PublicKey.toPoint (pk : PublicKey) : CurvePoint :=
  .affine pk.val.1 pk.val.2

/-- Embeds `<PublicKey as Serializable>::to_bytes`: the uncompressed SEC1 encoding
(`to_encoded_point(false)`), 65 bytes. -/
def PublicKey.to_bytes (pk : PublicKey) : Bytes :=
  (4 : Fin 256) :: (natToBytesBE 32 pk.val.1 ++ natToBytesBE 32 pk.val.2)

/-- Embeds `<PublicKey as Deserializable>::from_bytes`: checks the length against
`Npk = 65` via `enforce_equal_len` (so only the uncompressed representation is
ever considered), then parses through `k256::PublicKey::from_sec1_bytes`:
tag byte `0x04`, coordinates below the field prime, the curve equation, and
rejection of the point at infinity (which has no 65-byte SEC1 encoding). -/
def PublicKey.from_bytes (b : Bytes) : Except HpkeError PublicKey :=
  match enforce_equal_len 65 b.length with
  | .error e => .error e
  | .ok _ =>
    match b with
    | [] => .error .ValidationError
    | tag :: rest =>
      if h : tag = (4 : Fin 256) ∧ onCurve (bytesToNatBE (rest.take 32)) (bytesToNatBE (rest.drop 32)) then
        .ok ⟨(bytesToNatBE (rest.take 32), bytesToNatBE (rest.drop 32)), h.2⟩
      else
        .error .ValidationError

/-! ## Public keys and DH results, group view

The black-box backend group is cyclic of prime order `nOrder`; it is
represented by discrete logarithms in base the generator, i.e. by `ZMod
nOrder`: the identity element is `0`, the generator is `1`, and raising to a
scalar is multiplication. -/

namespace Group

/-- A group element of the backend curve group, in discrete-logarithm
representation.  `0` is the identity (the point at infinity). -/
abbrev Point : Type := ZMod nOrder

/-- The group-level view of an ECDH-K256 public key: a group element that is
never the identity (the invariant of the Rust `PublicKey`). -/
abbrev PublicKey : Type := { P : Point // P ≠ 0 }

/-- A bare DH computation result (`KexResult`, wrapping the backend's
`SharedSecret`, a deterministic encoding of the combined group element). -/
structure KexResult where
  point : Point
deriving DecidableEq

end Group

namespace DhK256

/-- Embeds `DhK256::sk_to_pk`: the public key `sk·G`.  In discrete-log representation
this is the residue of the scalar; it is not the identity because the scalar
is nonzero modulo the prime group order. -/
def sk_to_pk (sk : PrivateKey) : Group.PublicKey :=
  ⟨((sk.val : Nat) : ZMod nOrder), by
    intro hc
    rw [ZMod.natCast_zmod_eq_zero_iff_dvd] at hc
    have h1 := sk.property.1
    have h2 := sk.property.2
    have h3 := Nat.le_of_dvd (by omega) hc
    omega⟩

/-- Embeds `DhK256::dh`: the DH operation `pk^sk`, i.e. scalar multiplication of the
public key's group element — multiplication in the discrete-log
representation.  The function is infallible: it always returns `Ok`. -/
def dh (sk : PrivateKey) (pk : Group.PublicKey) : Except DhError Group.KexResult :=
  .ok ⟨((sk.val : Nat) : ZMod nOrder) * pk.val⟩

end DhK256

/-! ## The labeled KDF interface

Modelled from the spec: the `kdf` module (HKDF and the labeling scheme) is not
under `src/`.  Per §4.3/§6 the underlying primitive offers
`extract(salt, input) -> PRK` and `expand(prk, info, out_len) -> bytes` (the
latter failing only when `out_len` exceeds the primitive's maximum output);
the Rust code is generic over this interface, embedded as a structure. -/

structure Kdf where
  extract : Bytes → Bytes → Bytes
  expand : Bytes → Bytes → Nat → Option Bytes

/-- The fixed domain-separation tag mixed into every labeled KDF call
(`"HPKE-v1"`). -/
def hpkeVersionTag : Bytes := [72, 80, 75, 69, 45, 118, 49]

/-- The label of the `DeriveKeyPair` extract step (`"dkp_prk"`). -/
def dkpPrkTag : Bytes := [100, 107, 112, 95, 112, 114, 107]

/-- The label of the `DeriveKeyPair` expand step (`"candidate"`). -/
def candidateTag : Bytes := [99, 97, 110, 100, 105, 100, 97, 116, 101]

/-- Modelled from the spec: `labeled_extract` of the `kdf` module (§4.3):
concatenates the domain-separation tag, the ciphersuite id, the label and the
keying material, and extracts with the given salt. -/
def labeled_extract (kdf : Kdf) (salt suite_id label ikm : Bytes) : Bytes :=
  kdf.extract salt (hpkeVersionTag ++ suite_id ++ label ++ ikm)

/-- Modelled from the spec: `labeled_expand` of the `kdf` module (§4.3):
builds the expand info from the 2-byte big-endian output length, the
domain-separation tag, the ciphersuite id, the label and the caller info. -/
def labeled_expand (kdf : Kdf) (prk suite_id label info : Bytes) (outLen : Nat) : Option Bytes :=
  kdf.expand prk (natToBytesBE 2 outLen ++ hpkeVersionTag ++ suite_id ++ label ++ info) outLen

/-! ## Deterministic key derivation (`DhK256::derive_keypair`) -/

namespace DhK256

/-- The candidate buffer of one loop iteration of `derive_keypair`: the
labeled expansion of the PRK with label `"candidate"`, info the single counter
byte (`I2OSP(counter, 1)`), and output length `Nsk = 32`. -/
def deriveCandidate (kdf : Kdf) (suite_id prk : Bytes) (counter : Nat) : Option Bytes :=
  labeled_expand kdf prk suite_id candidateTag (natToBytesBE 1 counter) 32

/-- The rejection-sampling loop of `derive_keypair` (`for counter in 0u8..=255`),
embedded with an explicit remaining-iteration count.  `none` models the two
fatal (`panic!`/`unwrap`) exits: a failing expansion, and exhausting all 256
counters. -/
def deriveLoop (kdf : Kdf) (suite_id prk : Bytes) :
    Nat → Nat → Option (PrivateKey × Group.PublicKey)
  | _, 0 => none
  | counter, fuel + 1 =>
    match deriveCandidate kdf suite_id prk counter with
    | none => none
    | some buf =>
      match PrivateKey.from_bytes buf with
      | .ok sk => some (sk, sk_to_pk sk)
      | .error _ => deriveLoop kdf suite_id prk (counter + 1) fuel

/-- Embeds `DhK256::derive_keypair`: extract a PRK from the input keying material
with label `"dkp_prk"` and empty salt, then try counters `0, 1, …, 255` in
order, returning the keypair of the first candidate that validates as a
private key. -/
def derive_keypair (kdf : Kdf) (suite_id ikm : Bytes) :
    Option (PrivateKey × Group.PublicKey) :=
  deriveLoop kdf suite_id (labeled_extract kdf [] suite_id dkpPrkTag ikm) 0 256

end DhK256

/-! ## The `DeriveKeyPair` algorithm as the specification words it -/

/-- The private key derived from counter `c`, per the spec: interpret
`LabeledExpand(prk, suite_id, "candidate", I2OSP(c,1), Nsk)` as a private key
via the §4.1 validation. -/
def specCandidateKey (kdf : Kdf) (suite_id prk : Bytes) (c : Nat) : Option PrivateKey :=
  (DhK256.deriveCandidate kdf suite_id prk c).bind
    fun buf => (PrivateKey.from_bytes buf).toOption

/-- The RFC 9180 `DeriveKeyPair` algorithm exactly as the specification words
it (§4.4): `prk = LabeledExtract("", suite_id, "dkp_prk", ikm)`; return
`(sk, sk_to_pk sk)` for the first counter in `[0, 255]` whose candidate
validates, and fail if there is none. -/
def specDeriveKeyPair (kdf : Kdf) (suite_id ikm : Bytes) :
    Option (PrivateKey × Group.PublicKey) :=
  ((List.range 256).findSome?
      (specCandidateKey kdf suite_id (labeled_extract kdf [] suite_id dkpPrkTag ikm))).map
    fun sk => (sk, DhK256.sk_to_pk sk)

/-! ## Concrete instantiations used by the witnesses -/

/-- A concrete KDF whose expansion always succeeds and returns the big-endian
encoding of `1` (a valid candidate scalar). -/
def kdfOne : Kdf := ⟨fun _ _ => [], fun _ _ len => some (natToBytesBE len 1)⟩

/-- A concrete KDF whose expansion always succeeds and returns the all-zero
buffer (an invalid candidate scalar, exercising exhaustion). -/
def kdfZero : Kdf := ⟨fun _ _ => [], fun _ _ len => some (natToBytesBE len 0)⟩

/-- The private key with scalar `1`. -/
def skOne : PrivateKey := ⟨1, by norm_num [nOrder]⟩

/-- The private key with scalar `2`. -/
def skTwo : PrivateKey := ⟨2, by norm_num [nOrder]⟩

/-- The secp256k1 generator point, as a concrete decoded public key. -/
def pkGen : PublicKey :=
  ⟨(55066263022277343669578718895168534326250603453777594175500187360389116729240,
    32670510020758816978083085130507043184471273380659243275938904335757337482424),
   by decide⟩

/-- The uncompressed SEC1 encoding of the secp256k1 generator point. -/
def pkGenBytes : Bytes :=
  (4 : Fin 256) ::
    (natToBytesBE 32
        55066263022277343669578718895168534326250603453777594175500187360389116729240 ++
      natToBytesBE 32
        32670510020758816978083085130507043184471273380659243275938904335757337482424)

/-! ## Theorems -/

theorem length_natToBytesBE (k m : Nat) : (natToBytesBE k m).length = k := by
  induction k generalizing m with
  | zero => rfl
  | succ k ih =>
    show (natToBytesBE k (m / 256) ++ [_] : List (Fin 256)).length = k + 1
    rw [List.length_append, ih]
    rfl

theorem bytesToNatBE_nil : bytesToNatBE [] = 0 := rfl

theorem foldl_be_acc (b : Bytes) :
    ∀ acc : Nat,
      b.foldl (fun a d => a * 256 + d.val) acc =
        acc * 256 ^ b.length + b.foldl (fun a d => a * 256 + d.val) 0 := by
  induction b with
  | nil => intro acc; simp [List.foldl]
  | cons d t ih =>
    intro acc
    show t.foldl _ (acc * 256 + d.val) = acc * 256 ^ (t.length + 1) + t.foldl _ (0 * 256 + d.val)
    rw [ih (acc * 256 + d.val), ih (0 * 256 + d.val)]
    ring

theorem bytesToNatBE_cons (d : Fin 256) (t : Bytes) :
    bytesToNatBE (d :: t) = d.val * 256 ^ t.length + bytesToNatBE t := by
  show t.foldl _ (0 * 256 + d.val) = _
  rw [foldl_be_acc t (0 * 256 + d.val)]
  simp [bytesToNatBE]

theorem bytesToNatBE_append (s t : Bytes) :
    bytesToNatBE (s ++ t) = bytesToNatBE s * 256 ^ t.length + bytesToNatBE t := by
  induction s with
  | nil => simp [bytesToNatBE_nil, List.nil_append]
  | cons d s ih =>
    show bytesToNatBE (d :: (s ++ t)) = _
    rw [bytesToNatBE_cons, bytesToNatBE_cons, ih, List.length_append]
    ring

theorem bytesToNatBE_lt (b : Bytes) : bytesToNatBE b < 256 ^ b.length := by
  induction b with
  | nil => simp [bytesToNatBE_nil]
  | cons d t ih =>
    rw [bytesToNatBE_cons]
    have hd : d.val ≤ 255 := Nat.lt_succ_iff.mp d.isLt
    calc d.val * 256 ^ t.length + bytesToNatBE t
        < d.val * 256 ^ t.length + 256 ^ t.length := by omega
      _ = (d.val + 1) * 256 ^ t.length := by ring
      _ ≤ 256 * 256 ^ t.length := by
          exact Nat.mul_le_mul_right _ (by omega)
      _ = 256 ^ (t.length + 1) := by rw [pow_succ]; ring

theorem bytesToNatBE_natToBytesBE (k m : Nat) (h : m < 256 ^ k) :
    bytesToNatBE (natToBytesBE k m) = m := by
  induction k generalizing m with
  | zero =>
    simp only [pow_zero, Nat.lt_one_iff] at h
    simp [natToBytesBE, bytesToNatBE_nil, h]
  | succ k ih =>
    show bytesToNatBE (natToBytesBE k (m / 256) ++ [_]) = m
    rw [bytesToNatBE_append]
    have hdiv : m / 256 < 256 ^ k := by
      rw [Nat.div_lt_iff_lt_mul (by norm_num : 0 < 256)]
      calc m < 256 ^ (k + 1) := h
        _ = 256 ^ k * 256 := by rw [pow_succ]
    rw [ih (m / 256) hdiv]
    show m / 256 * 256 ^ ([(⟨m % 256, _⟩ : Fin 256)].length) + bytesToNatBE [_] = m
    have : bytesToNatBE [(⟨m % 256, Nat.mod_lt m (by norm_num)⟩ : Fin 256)] = m % 256 := by
      simp [bytesToNatBE, List.foldl]
    rw [this]
    show m / 256 * 256 ^ 1 + m % 256 = m
    rw [pow_one]
    omega

theorem natToBytesBE_bytesToNatBE (k : Nat) (b : Bytes) (h : b.length = k) :
    natToBytesBE k (bytesToNatBE b) = b := by
  induction k generalizing b with
  | zero =>
    have : b = [] := List.length_eq_zero.mp h
    subst this
    rfl
  | succ k ih =>
    have hne : b ≠ [] := by
      intro hb; subst hb; simp at h
    obtain ⟨t, d, rfl⟩ : ∃ t d, b = t ++ [d] := by
      obtain ⟨d, t, hdt⟩ := List.exists_cons_of_ne_nil (List.reverse_ne_nil_iff.mpr hne)
      exact ⟨t.reverse, d, by
        have := congrArg List.reverse hdt
        simpa using this⟩
    have hlen : t.length = k := by
      have := h
      rw [List.length_append] at this
      simpa using this
    rw [bytesToNatBE_append]
    have hsingle : bytesToNatBE [d] = d.val := by simp [bytesToNatBE, List.foldl]
    show natToBytesBE (k + 1) (bytesToNatBE t * 256 ^ ([d].length) + bytesToNatBE [d]) = t ++ [d]
    rw [hsingle]
    show natToBytesBE k ((bytesToNatBE t * 256 ^ ([d].length) + d.val) / 256) ++ [_] = t ++ [d]
    have hlen1 : ([d] : Bytes).length = 1 := rfl
    rw [hlen1, pow_one]
    have hdlt : d.val < 256 := d.isLt
    have hq : (bytesToNatBE t * 256 + d.val) / 256 = bytesToNatBE t := by omega
    have hr : (bytesToNatBE t * 256 + d.val) % 256 = d.val := by omega
    rw [hq, ih t hlen]
    exact congrArg (fun x => t ++ [x]) (Fin.ext hr)

theorem powModF_lt (m : Nat) (hm : 0 < m) :
    ∀ fuel a e, powModF m fuel a e < m := by
  intro fuel
  induction fuel with
  | zero => intro a e; exact Nat.mod_lt 1 hm
  | succ fuel ih =>
    intro a e
    show (if e = 0 then 1 % m
      else
        let h := powModF m fuel (a * a % m) (e / 2)
        if e % 2 = 1 then h * a % m else h) < m
    split
    · exact Nat.mod_lt 1 hm
    · dsimp only
      split
      · exact Nat.mod_lt _ hm
      · exact ih _ _

theorem powModF_eq (m : Nat) (_hm : 0 < m) :
    ∀ fuel a e, e < 2 ^ fuel → powModF m fuel a e = a ^ e % m := by
  intro fuel
  induction fuel with
  | zero =>
    intro a e he
    simp only [pow_zero, Nat.lt_one_iff] at he
    subst he
    show 1 % m = a ^ 0 % m
    rw [pow_zero]
  | succ fuel ih =>
    intro a e he
    show (if e = 0 then 1 % m
      else
        let h := powModF m fuel (a * a % m) (e / 2)
        if e % 2 = 1 then h * a % m else h) = a ^ e % m
    split
    · rename_i he0
      subst he0
      rw [pow_zero]
    · rename_i he0
      dsimp only
      have hdiv : e / 2 < 2 ^ fuel := by
        rw [Nat.div_lt_iff_lt_mul (by norm_num : 0 < 2)]
        calc e < 2 ^ (fuel + 1) := he
          _ = 2 ^ fuel * 2 := by rw [pow_succ]
      have hrec : powModF m fuel (a * a % m) (e / 2) = a ^ (2 * (e / 2)) % m := by
        rw [ih _ _ hdiv, ← Nat.pow_mod, ← pow_two, ← pow_mul]
      split
      · rename_i hodd
        rw [hrec, Nat.mul_mod, Nat.mod_mod_of_dvd _ (dvd_refl m), ← Nat.mul_mod]
        rw [← pow_succ]
        congr 2
        omega
      · rename_i heven
        have h2 : e % 2 = 0 := by omega
        rw [hrec]
        congr 2
        omega

/-! ## Lucas (Pratt) primality certificates -/

theorem prime_dvd_list_prod {q : Nat} (hq : q.Prime) :
    ∀ l : List Nat, q ∣ l.prod → ∃ r ∈ l, q ∣ r := by
  intro l
  induction l with
  | nil =>
    intro h
    rw [List.prod_nil] at h
    exact absurd h hq.not_dvd_one
  | cons x t ih =>
    intro h
    rw [List.prod_cons] at h
    rcases (Nat.Prime.dvd_mul hq).mp h with hx | ht
    · exact ⟨x, List.mem_cons_self x t, hx⟩
    · obtain ⟨r, hr, hqr⟩ := ih ht
      exact ⟨r, List.mem_cons_of_mem x hr, hqr⟩

/-- Lucas primality certificate checker: `a` is a primitive-root witness for
`p`, `qs` is the complete multiset of prime factors of `p - 1`, and the two
exponentiation conditions are checked through the verified `powModF`. -/
theorem lucas_cert (p a fuel : Nat) (qs : List Nat)
    (hp : 2 ≤ p)
    (hprod : qs.prod = p - 1)
    (hqs : ∀ q ∈ qs, Nat.Prime q)
    (hfuel : p - 1 < 2 ^ fuel)
    (hpow : powModF p fuel a (p - 1) = 1)
    (hdiv : ∀ q ∈ qs, powModF p fuel a ((p - 1) / q) ≠ 1) :
    Nat.Prime p := by
  have hppos : 0 < p := by omega
  have h1p : 1 < p := by omega
  haveI : Fact (1 < p) := ⟨h1p⟩
  have key : ∀ e, e < 2 ^ fuel →
      ((a : ZMod p)) ^ e = ((powModF p fuel a e : Nat) : ZMod p) := by
    intro e he
    rw [powModF_eq p hppos fuel a e he, ZMod.natCast_mod, Nat.cast_pow]
  have cast_eq_one : ∀ x : Nat, x < p → (((x : Nat) : ZMod p) = 1 → x = 1) := by
    intro x hx hcast
    have := congrArg ZMod.val hcast
    rwa [ZMod.val_cast_of_lt hx, ZMod.val_one] at this
  apply lucas_primality p ((a : Nat) : ZMod p)
  · rw [key _ hfuel, hpow]
    exact Nat.cast_one
  · intro q hqprime hqdvd
    obtain ⟨r, hr, hqr⟩ := prime_dvd_list_prod hqprime qs (by rw [hprod]; exact hqdvd)
    have hqeq : q = r := (Nat.prime_dvd_prime_iff_eq hqprime (hqs r hr)).mp hqr
    subst hqeq
    rw [key ((p - 1) / q) (lt_of_le_of_lt (Nat.div_le_self _ _) hfuel)]
    intro hcontra
    exact hdiv q hr
      (cast_eq_one _ (powModF_lt p hppos fuel a ((p - 1) / q)) hcontra)

/-! ### The Pratt certificate chain for the secp256k1 group order -/

theorem prime_4681609 : Nat.Prime 4681609 := by
  apply lucas_cert 4681609 23 23 [2, 2, 2, 3, 97, 2011]
  · norm_num
  · decide
  · intro q hq
    fin_cases hq <;> norm_num
  · norm_num
  · decide
  · decide

theorem prime_545358713 : Nat.Prime 545358713 := by
  apply lucas_cert 545358713 5 30 [2, 2, 2, 41, 59, 28181]
  · norm_num
  · decide
  · intro q hq
    fin_cases hq <;> norm_num
  · norm_num
  · decide
  · decide

theorem prime_1627771 : Nat.Prime 1627771 := by
  apply lucas_cert 1627771 3 21 [2, 3, 5, 29, 1871]
  · norm_num
  · decide
  · intro q hq
    fin_cases hq <;> norm_num
  · norm_num
  · decide
  · decide

theorem prime_44706919 : Nat.Prime 44706919 := by
  apply lucas_cert 44706919 6 26 [2, 3, 797, 9349]
  · norm_num
  · decide
  · intro q hq
    fin_cases hq <;> norm_num
  · norm_num
  · decide
  · decide

theorem prime_297159362677 : Nat.Prime 297159362677 := by
  apply lucas_cert 297159362677 2 39 [2, 2, 3, 3, 11, 461, 1627771]
  · norm_num
  · decide
  · intro q hq
    fin_cases hq
    · norm_num
    · norm_num
    · norm_num
    · norm_num
    · norm_num
    · norm_num
    · exact prime_1627771
  · norm_num
  · decide
  · decide

theorem prime_107361793816595537 : Nat.Prime 107361793816595537 := by
  apply lucas_cert 107361793816595537 3 57 [2, 2, 2, 2, 16699, 85831, 4681609]
  · norm_num
  · decide
  · intro q hq
    fin_cases hq
    · norm_num
    · norm_num
    · norm_num
    · norm_num
    · norm_num
    · norm_num
    · exact prime_4681609
  · norm_num
  · decide
  · decide

theorem prime_174723607534414371449 : Nat.Prime 174723607534414371449 := by
  apply lucas_cert 174723607534414371449 3 68 [2, 2, 2, 17, 59, 4051, 120233, 44706919]
  · norm_num
  · decide
  · intro q hq
    fin_cases hq
    · norm_num
    · norm_num
    · norm_num
    · norm_num
    · norm_num
    · norm_num
    · norm_num
    · exact prime_44706919
  · norm_num
  · decide
  · decide

theorem prime_29047611873442575647497758179 :
    Nat.Prime 29047611873442575647497758179 := by
  apply lucas_cert 29047611873442575647497758179 2 95
    [2, 293, 305873, 545358713, 297159362677]
  · norm_num
  · decide
  · intro q hq
    fin_cases hq
    · norm_num
    · norm_num
    · norm_num
    · exact prime_545358713
    · exact prime_297159362677
  · norm_num
  · decide
  · decide

theorem prime_341948486974166000522343609283189 :
    Nat.Prime 341948486974166000522343609283189 := by
  apply lucas_cert 341948486974166000522343609283189 2 109
    [2, 2, 3, 3, 3, 109, 29047611873442575647497758179]
  · norm_num
  · decide
  · intro q hq
    fin_cases hq
    · norm_num
    · norm_num
    · norm_num
    · norm_num
    · norm_num
    · norm_num
    · exact prime_29047611873442575647497758179
  · norm_num
  · decide
  · decide

theorem prime_secp256k1_order :
    Nat.Prime
      115792089237316195423570985008687907852837564279074904382605163141518161494337 := by
  apply lucas_cert
    115792089237316195423570985008687907852837564279074904382605163141518161494337 7 256
    [2, 2, 2, 2, 2, 2, 3, 149, 631, 107361793816595537, 174723607534414371449,
      341948486974166000522343609283189]
  · norm_num
  · decide
  · intro q hq
    fin_cases hq
    · norm_num
    · norm_num
    · norm_num
    · norm_num
    · norm_num
    · norm_num
    · norm_num
    · norm_num
    · norm_num
    · exact prime_107361793816595537
    · exact prime_174723607534414371449
    · exact prime_341948486974166000522343609283189
  · norm_num
  · decide
  · decide

theorem prime_nOrder : Nat.Prime nOrder := prime_secp256k1_order

theorem nOrder_pos : 0 < nOrder := by norm_num [nOrder]

theorem nOrder_lt_pow : nOrder < 256 ^ 32 := by norm_num [nOrder]

/-- The scalar of a valid `PrivateKey` is nonzero modulo the group order. -/
theorem natCast_privkey_ne_zero (sk : PrivateKey) :
    ((sk.val : Nat) : ZMod nOrder) ≠ 0 := by
  intro h
  rw [ZMod.natCast_zmod_eq_zero_iff_dvd] at h
  have h1 := sk.property.1
  have h2 := sk.property.2
  have := Nat.le_of_dvd (by omega) h
  omega

/-! ## Properties of the derivation loop -/

theorem deriveLoop_zero (kdf : Kdf) (suite_id prk : Bytes) (counter : Nat) :
    DhK256.deriveLoop kdf suite_id prk counter 0 = none := rfl

theorem deriveLoop_succ (kdf : Kdf) (suite_id prk : Bytes) (counter fuel : Nat) :
    DhK256.deriveLoop kdf suite_id prk counter (fuel + 1) =
      match DhK256.deriveCandidate kdf suite_id prk counter with
      | none => none
      | some buf =>
        match PrivateKey.from_bytes buf with
        | .ok sk => some (sk, DhK256.sk_to_pk sk)
        | .error _ => DhK256.deriveLoop kdf suite_id prk (counter + 1) fuel := rfl

/-- The loop, started at `counter` with `fuel` remaining iterations, returns
the key of the first valid candidate in the window — provided no expansion in
the window fails. -/
theorem deriveLoop_spec (kdf : Kdf) (suite_id prk : Bytes) :
    ∀ fuel counter,
      (∀ c, counter ≤ c → c < counter + fuel →
        (DhK256.deriveCandidate kdf suite_id prk c).isSome) →
      DhK256.deriveLoop kdf suite_id prk counter fuel =
        ((List.range' counter fuel).findSome? (specCandidateKey kdf suite_id prk)).map
          (fun sk => (sk, DhK256.sk_to_pk sk)) := by
  intro fuel
  induction fuel with
  | zero =>
    intro counter _
    simp [deriveLoop_zero]
  | succ fuel ih =>
    intro counter h
    have hc : (DhK256.deriveCandidate kdf suite_id prk counter).isSome :=
      h counter (Nat.le_refl _) (by omega)
    obtain ⟨buf, hbuf⟩ := Option.isSome_iff_exists.mp hc
    have hspec : specCandidateKey kdf suite_id prk counter =
        (PrivateKey.from_bytes buf).toOption := by
      simp [specCandidateKey, hbuf]
    rw [deriveLoop_succ, hbuf, List.range'_succ, List.findSome?_cons, hspec]
    cases hfb : PrivateKey.from_bytes buf with
    | ok sk => simp [Except.toOption, hfb]
    | error e =>
      simp only [Except.toOption, hfb]
      exact ih (counter + 1) (fun c h1 h2 => h c (by omega) (by omega))

/-- If every candidate in the window yields no valid key (failed expansion or
failed validation), the loop fails. -/
theorem deriveLoop_none (kdf : Kdf) (suite_id prk : Bytes) :
    ∀ fuel counter,
      (∀ c, counter ≤ c → c < counter + fuel →
        specCandidateKey kdf suite_id prk c = none) →
      DhK256.deriveLoop kdf suite_id prk counter fuel = none := by
  intro fuel
  induction fuel with
  | zero => intro counter _; rfl
  | succ fuel ih =>
    intro counter h
    rw [deriveLoop_succ]
    have hcand := h counter (Nat.le_refl _) (by omega)
    cases hbuf : DhK256.deriveCandidate kdf suite_id prk counter with
    | none => rfl
    | some buf =>
      cases hfb : PrivateKey.from_bytes buf with
      | ok sk =>
        exfalso
        rw [specCandidateKey, hbuf] at hcand
        simp [Except.toOption, hfb] at hcand
      | error e =>
        simp only [hfb]
        exact ih (counter + 1) (fun c h1 h2 => h c (by omega) (by omega))

/-- Whatever the loop returns, the public key is `sk_to_pk` of the private
key. -/
theorem deriveLoop_pk (kdf : Kdf) (suite_id prk : Bytes) :
    ∀ fuel counter sk pk,
      DhK256.deriveLoop kdf suite_id prk counter fuel = some (sk, pk) →
      pk = DhK256.sk_to_pk sk := by
  intro fuel
  induction fuel with
  | zero => intro counter sk pk h; exact absurd h (by simp [deriveLoop_zero])
  | succ fuel ih =>
    intro counter sk pk h
    rw [deriveLoop_succ] at h
    cases hbuf : DhK256.deriveCandidate kdf suite_id prk counter with
    | none => rw [hbuf] at h; exact absurd h (by simp)
    | some buf =>
      rw [hbuf] at h
      cases hfb : PrivateKey.from_bytes buf with
      | ok sk' =>
        simp only [hfb, Option.some.injEq, Prod.mk.injEq] at h
        rw [← h.1, h.2]
      | error e =>
        simp only [hfb] at h
        exact ih (counter + 1) sk pk h

/-! ## Properties of the serialization layer -/

theorem qField_lt_pow : qField < 256 ^ 32 := by norm_num [qField]

/-- Closed-form characterization of `PrivateKey.from_bytes`. -/
theorem PrivateKey.from_bytes_eq (b : Bytes) :
    PrivateKey.from_bytes b =
      if h : b.length = 32 ∧ 1 ≤ bytesToNatBE b ∧ bytesToNatBE b < nOrder then
        .ok ⟨bytesToNatBE b, h.2⟩
      else
        .error .ValidationError := by
  unfold PrivateKey.from_bytes enforce_equal_len
  by_cases hlen : b.length = 32
  · rw [if_pos hlen]
    by_cases hr : 1 ≤ bytesToNatBE b ∧ bytesToNatBE b < nOrder
    · rw [dif_pos hr, dif_pos ⟨hlen, hr⟩]
    · rw [dif_neg hr, dif_neg (fun hc => hr hc.2)]
  · rw [if_neg hlen,
      dif_neg (fun hc : b.length = 32 ∧ 1 ≤ bytesToNatBE b ∧ bytesToNatBE b < nOrder =>
        hlen hc.1)]

/-- Inversion of a successful `PrivateKey.from_bytes`. -/
theorem PrivateKey.from_bytes_ok_inv (b : Bytes) (sk : PrivateKey)
    (h : PrivateKey.from_bytes b = .ok sk) :
    b.length = 32 ∧ sk.val = bytesToNatBE b := by
  rw [PrivateKey.from_bytes_eq] at h
  by_cases hc : b.length = 32 ∧ 1 ≤ bytesToNatBE b ∧ bytesToNatBE b < nOrder
  · rw [dif_pos hc] at h
    cases h
    exact ⟨hc.1, rfl⟩
  · rw [dif_neg hc] at h
    exact absurd h (by simp)

theorem PublicKey.from_bytes_wrong_len (b : Bytes) (h : b.length ≠ 65) :
    PublicKey.from_bytes b = .error .ValidationError := by
  unfold PublicKey.from_bytes enforce_equal_len
  rw [if_neg h]

/-- Closed-form characterization of `PublicKey.from_bytes` on a 65-byte
input. -/
theorem PublicKey.from_bytes_cons (tag : Fin 256) (rest : Bytes)
    (hlen : rest.length = 64) :
    PublicKey.from_bytes (tag :: rest) =
      if h : tag = (4 : Fin 256) ∧
          onCurve (bytesToNatBE (rest.take 32)) (bytesToNatBE (rest.drop 32)) then
        .ok ⟨(bytesToNatBE (rest.take 32), bytesToNatBE (rest.drop 32)), h.2⟩
      else
        .error .ValidationError := by
  unfold PublicKey.from_bytes enforce_equal_len
  have hl : (tag :: rest).length = 65 := by simp [hlen]
  rw [if_pos hl]

/-- Inversion of a successful `PublicKey.from_bytes`. -/
theorem PublicKey.from_bytes_ok_spec (b : Bytes) (pk : PublicKey)
    (h : PublicKey.from_bytes b = .ok pk) :
    ∃ rest : Bytes, b = (4 : Fin 256) :: rest ∧ rest.length = 64 ∧
      pk.val.1 = bytesToNatBE (rest.take 32) ∧ pk.val.2 = bytesToNatBE (rest.drop 32) := by
  by_cases hlen : b.length = 65
  · match b with
    | [] => simp at hlen
    | tag :: rest =>
      have hrest : rest.length = 64 := by
        simpa using hlen
      rw [PublicKey.from_bytes_cons tag rest hrest] at h
      by_cases hc : tag = (4 : Fin 256) ∧
          onCurve (bytesToNatBE (rest.take 32)) (bytesToNatBE (rest.drop 32))
      · rw [dif_pos hc] at h
        cases h
        exact ⟨rest, by rw [hc.1], hrest, rfl, rfl⟩
      · rw [dif_neg hc] at h
        exact absurd h (by simp)
  · rw [PublicKey.from_bytes_wrong_len b hlen] at h
    exact absurd h (by simp)

/-! ## Claim theorems: key derivation -/

/-- Claim C1. `derive_keypair` implements the RFC 9180 `DeriveKeyPair`
algorithm: it computes `prk = LabeledExtract(salt="", suite_id, "dkp_prk",
ikm)`, then, for counters `0, 1, …` in order, expands
`candidate = LabeledExpand(prk, suite_id, "candidate", [counter], Nsk=32)`
and returns `(sk, sk_to_pk sk)` for the first counter whose candidate
validates as a `PrivateKey`, never consulting a later counter (first-hit
semantics of `List.findSome?`); the leading-byte bitmask of the RFC is a
no-op for this curve (`0xFF`) and does not appear.  The hypothesis states
that no expansion in the window fails, which is how the source justifies its
`.unwrap()` on `labeled_expand`. -/
theorem C1_derive_keypair_implements_rfc (kdf : Kdf) (suite_id ikm : Bytes)
    (hexp : ∀ c, c < 256 →
      (DhK256.deriveCandidate kdf suite_id
        (labeled_extract kdf [] suite_id dkpPrkTag ikm) c).isSome) :
    DhK256.derive_keypair kdf suite_id ikm = specDeriveKeyPair kdf suite_id ikm := by
  unfold DhK256.derive_keypair specDeriveKeyPair
  rw [List.range_eq_range']
  exact deriveLoop_spec kdf suite_id _ 256 0 (fun c h1 h2 => hexp c (by omega))

/-- Witness for C1, at a concrete KDF for which every expansion succeeds. -/
theorem C1_witness :
    (∀ c, c < 256 →
      (DhK256.deriveCandidate kdfOne []
        (labeled_extract kdfOne [] [] dkpPrkTag []) c).isSome) ∧
    DhK256.derive_keypair kdfOne [] [] = specDeriveKeyPair kdfOne [] [] :=
  ⟨by decide, C1_derive_keypair_implements_rfc kdfOne [] [] (by decide)⟩

/-- Claim C5. If no counter in `[0, 255]` yields a valid scalar,
`derive_keypair` fails (the `none` of the embedding models the fatal
`panic!`, which the source favours over a recoverable error value); and under
no circumstances does `derive_keypair` return a private key violating the
`[1, nOrder)` invariant. -/
theorem C5_exhaustion_aborts_never_invalid (kdf : Kdf) (suite_id ikm : Bytes) :
    ((∀ c, c < 256 →
        specCandidateKey kdf suite_id (labeled_extract kdf [] suite_id dkpPrkTag ikm) c = none) →
      DhK256.derive_keypair kdf suite_id ikm = none) ∧
    (∀ sk pk, DhK256.derive_keypair kdf suite_id ikm = some (sk, pk) →
      1 ≤ sk.val ∧ sk.val < nOrder) := by
  constructor
  · intro h
    unfold DhK256.derive_keypair
    exact deriveLoop_none kdf suite_id _ 256 0 (fun c h1 h2 => h c (by omega))
  · intro sk _ _
    exact sk.property

/-- Witness for C5: a KDF producing only all-zero candidates exhausts the
loop and aborts; a KDF producing the scalar `1` derives a key in range. -/
theorem C5_witness :
    DhK256.derive_keypair kdfZero [] [] = none ∧
    (1 ≤ skOne.val ∧ skOne.val < nOrder) :=
  ⟨(C5_exhaustion_aborts_never_invalid kdfZero [] []).1 (by decide),
   (C5_exhaustion_aborts_never_invalid kdfOne [] []).2 skOne (DhK256.sk_to_pk skOne)
     (by decide)⟩

/-- Claim C7. Whenever `derive_keypair` returns, the private key is a scalar in
`[1, nOrder)`, and the public key equals `sk_to_pk` of that private key and
is not the identity element. -/
theorem C7_derived_keys_valid (kdf : Kdf) (suite_id ikm : Bytes) (sk : PrivateKey)
    (pk : Group.PublicKey)
    (h : DhK256.derive_keypair kdf suite_id ikm = some (sk, pk)) :
    (1 ≤ sk.val ∧ sk.val < nOrder) ∧ pk = DhK256.sk_to_pk sk ∧ pk.val ≠ 0 :=
  ⟨sk.property, deriveLoop_pk kdf suite_id _ 256 0 sk pk h, pk.property⟩

/-- Witness for C7 at a concrete successful derivation. -/
theorem C7_witness :
    (1 ≤ skOne.val ∧ skOne.val < nOrder) ∧
    DhK256.sk_to_pk skOne = DhK256.sk_to_pk skOne ∧ (DhK256.sk_to_pk skOne).val ≠ 0 :=
  C7_derived_keys_valid kdfOne [] [] skOne (DhK256.sk_to_pk skOne) (by decide)

/-- Claim C8. `derive_keypair` is deterministic: it is a pure function of the
ciphersuite id and the input keying material (there is no hidden state or
randomness in the embedding, mirroring the source, which consults neither),
so any two invocations on equal inputs return identical keypairs — identical
private-key bytes, and identical encodings of the public key under every
(deterministic) encoder. -/
theorem C8_derivation_deterministic (kdf : Kdf) (suite_id ikm suite_id' ikm' : Bytes)
    (hs : suite_id = suite_id') (hi : ikm = ikm') :
    DhK256.derive_keypair kdf suite_id ikm = DhK256.derive_keypair kdf suite_id' ikm' ∧
    (DhK256.derive_keypair kdf suite_id ikm).map (fun kp => kp.1.to_bytes) =
      (DhK256.derive_keypair kdf suite_id' ikm').map (fun kp => kp.1.to_bytes) ∧
    ∀ enc : Group.PublicKey → Bytes,
      (DhK256.derive_keypair kdf suite_id ikm).map (fun kp => enc kp.2) =
        (DhK256.derive_keypair kdf suite_id' ikm').map (fun kp => enc kp.2) := by
  subst hs
  subst hi
  exact ⟨rfl, rfl, fun _ => rfl⟩

/-- Witness for C8 at concrete equal inputs and a concrete encoder. -/
theorem C8_witness :
    DhK256.derive_keypair kdfOne [] [] = DhK256.derive_keypair kdfOne [] [] ∧
    (DhK256.derive_keypair kdfOne [] []).map (fun kp => kp.1.to_bytes) =
      (DhK256.derive_keypair kdfOne [] []).map (fun kp => kp.1.to_bytes) ∧
    (DhK256.derive_keypair kdfOne [] []).map
        (fun kp => (fun pk : Group.PublicKey => natToBytesBE 32 pk.val.val) kp.2) =
      (DhK256.derive_keypair kdfOne [] []).map
        (fun kp => (fun pk : Group.PublicKey => natToBytesBE 32 pk.val.val) kp.2) :=
  ⟨(C8_derivation_deterministic kdfOne [] [] [] [] rfl rfl).1,
   (C8_derivation_deterministic kdfOne [] [] [] [] rfl rfl).2.1,
   (C8_derivation_deterministic kdfOne [] [] [] [] rfl rfl).2.2
     (fun pk : Group.PublicKey => natToBytesBE 32 pk.val.val)⟩

/-! ## Claim theorems: the DH operation -/

/-- Claim C2. For every `PrivateKey` and `PublicKey` satisfying their
construction invariants (carried by the subtypes: a nonzero scalar below the
group order, a non-identity group element), `dh` succeeds — it never takes
the `DhError` branch — and the resulting shared secret is never the identity
element: a non-identity element of a prime-order group raised to a nonzero
exponent below the order cannot give the identity. -/
theorem C2_dh_infallible_nonidentity (sk : PrivateKey) (pk : Group.PublicKey) :
    ∃ r : Group.KexResult, DhK256.dh sk pk = .ok r ∧ r.point ≠ 0 := by
  haveI : Fact (Nat.Prime nOrder) := ⟨prime_nOrder⟩
  refine ⟨⟨((sk.val : Nat) : ZMod nOrder) * pk.val⟩, rfl, ?_⟩
  exact mul_ne_zero (natCast_privkey_ne_zero sk) pk.property

/-- Claim C9. DH symmetry: for keypairs `(skA, pkA)` and `(skB, pkB)` with
`pkA = sk_to_pk skA` and `pkB = sk_to_pk skB`, the results of
`dh skA pkB` and `dh skB pkA` coincide, and so do their shared-secret bytes
under every (deterministic) encoding of the result. -/
theorem C9_dh_symmetric (skA skB : PrivateKey) (pkA pkB : Group.PublicKey)
    (hA : pkA = DhK256.sk_to_pk skA) (hB : pkB = DhK256.sk_to_pk skB) :
    DhK256.dh skA pkB = DhK256.dh skB pkA ∧
    ∀ enc : Group.KexResult → Bytes,
      (DhK256.dh skA pkB).map enc = (DhK256.dh skB pkA).map enc := by
  subst hA
  subst hB
  have h1 : DhK256.dh skA (DhK256.sk_to_pk skB) = DhK256.dh skB (DhK256.sk_to_pk skA) := by
    unfold DhK256.dh DhK256.sk_to_pk
    simp only
    rw [mul_comm]
  exact ⟨h1, fun enc => by rw [h1]⟩

/-- Witness for C9 at the concrete scalars `1` and `2` and a concrete
encoder. -/
theorem C9_witness :
    DhK256.dh skOne (DhK256.sk_to_pk skTwo) = DhK256.dh skTwo (DhK256.sk_to_pk skOne) ∧
    (DhK256.dh skOne (DhK256.sk_to_pk skTwo)).map
        (fun r : Group.KexResult => natToBytesBE 32 r.point.val) =
      (DhK256.dh skTwo (DhK256.sk_to_pk skOne)).map
        (fun r : Group.KexResult => natToBytesBE 32 r.point.val) :=
  ⟨(C9_dh_symmetric skOne skTwo (DhK256.sk_to_pk skOne) (DhK256.sk_to_pk skTwo) rfl rfl).1,
   (C9_dh_symmetric skOne skTwo (DhK256.sk_to_pk skOne) (DhK256.sk_to_pk skTwo) rfl rfl).2
     (fun r : Group.KexResult => natToBytesBE 32 r.point.val)⟩

/-! ## Claim theorems: serialization -/

/-- Claim C3. `PrivateKey.from_bytes buf` fails with `ValidationError` if and
only if the length of `buf` is not `Nsk = 32`, or the decoded big-endian
scalar is zero, or the decoded scalar is not below the group order; on
success the returned key is that scalar, lying in `[1, nOrder)`. -/
theorem C3_privkey_from_bytes_validation (b : Bytes) :
    (PrivateKey.from_bytes b = .error .ValidationError ↔
      b.length ≠ 32 ∨ bytesToNatBE b = 0 ∨ nOrder ≤ bytesToNatBE b) ∧
    ∀ sk, PrivateKey.from_bytes b = .ok sk →
      (1 ≤ sk.val ∧ sk.val < nOrder) ∧ sk.val = bytesToNatBE b := by
  rw [PrivateKey.from_bytes_eq]
  by_cases h : b.length = 32 ∧ 1 ≤ bytesToNatBE b ∧ bytesToNatBE b < nOrder
  · rw [dif_pos h]
    constructor
    · constructor
      · intro hc
        exact absurd hc (by simp)
      · intro hc
        obtain ⟨h1, h2, h3⟩ := h
        rcases hc with hc | hc | hc
        · exact absurd h1 hc
        · omega
        · omega
    · intro sk hsk
      cases hsk
      exact ⟨h.2, rfl⟩
  · rw [dif_neg h]
    constructor
    · constructor
      · intro _
        by_cases hlen : b.length = 32
        · have hr : ¬(1 ≤ bytesToNatBE b ∧ bytesToNatBE b < nOrder) :=
            fun hr => h ⟨hlen, hr⟩
          omega
        · exact Or.inl hlen
      · intro _
        rfl
    · intro sk hsk
      exact absurd hsk (by simp)

/-- Witness for C3: decoding the canonical encoding of `1` succeeds with the
scalar `1`. -/
theorem C3_witness :
    (1 ≤ (skOne : PrivateKey).val ∧ (skOne : PrivateKey).val < nOrder) ∧
    (skOne : PrivateKey).val = bytesToNatBE (natToBytesBE 32 1) :=
  (C3_privkey_from_bytes_validation (natToBytesBE 32 1)).2 skOne (by decide)

/-- Claim C4. `PublicKey.from_bytes` rejects every buffer whose length is not
`Npk = 65` with the length-mismatch validation error, without consulting the
buffer's content (so no point decoding is attempted); a 65-byte buffer is
accepted exactly when it is the uncompressed SEC1 encoding of a group element
— which excludes the identity, since the point at infinity has no 65-byte
uncompressed encoding; and an accepted key never denotes the identity. -/
theorem C4_pubkey_from_bytes_validation (b : Bytes) :
    (b.length ≠ 65 → PublicKey.from_bytes b = .error .ValidationError) ∧
    (∀ b' : Bytes, b.length ≠ 65 → b'.length ≠ 65 →
      PublicKey.from_bytes b = PublicKey.from_bytes b') ∧
    ((PublicKey.from_bytes b).isOk ↔
      ∃ x y, onCurve x y ∧
        b = (4 : Fin 256) :: (natToBytesBE 32 x ++ natToBytesBE 32 y)) ∧
    (∀ pk, PublicKey.from_bytes b = .ok pk → pk.toPoint ≠ CurvePoint.infinity) := by
  refine ⟨fun h => PublicKey.from_bytes_wrong_len b h,
    fun b' h h' => by
      rw [PublicKey.from_bytes_wrong_len b h, PublicKey.from_bytes_wrong_len b' h'],
    ?_, ?_⟩
  · constructor
    · intro hok
      obtain ⟨pk, hpk⟩ : ∃ pk, PublicKey.from_bytes b = .ok pk := by
        cases hfb : PublicKey.from_bytes b with
        | ok pk => exact ⟨pk, rfl⟩
        | error e => rw [hfb] at hok; exact absurd hok (by simp [Except.isOk, Except.toBool])
      obtain ⟨rest, hb, hrest, hx, hy⟩ := PublicKey.from_bytes_ok_spec b pk hpk
      refine ⟨pk.val.1, pk.val.2, pk.property, ?_⟩
      have htake : (rest.take 32).length = 32 := by
        rw [List.length_take, hrest]; decide
      have hdrop : (rest.drop 32).length = 32 := by
        rw [List.length_drop, hrest]
      have hxx : natToBytesBE 32 pk.val.1 = rest.take 32 := by
        rw [hx]
        exact natToBytesBE_bytesToNatBE 32 (rest.take 32) htake
      have hyy : natToBytesBE 32 pk.val.2 = rest.drop 32 := by
        rw [hy]
        exact natToBytesBE_bytesToNatBE 32 (rest.drop 32) hdrop
      rw [hb, hxx, hyy, List.take_append_drop]
    · rintro ⟨x, y, hcurve, rfl⟩
      have hxlen := length_natToBytesBE 32 x
      have hylen := length_natToBytesBE 32 y
      have hrest : (natToBytesBE 32 x ++ natToBytesBE 32 y).length = 64 := by
        rw [List.length_append, hxlen, hylen]
      have htake : (natToBytesBE 32 x ++ natToBytesBE 32 y).take 32 = natToBytesBE 32 x :=
        List.take_left' hxlen
      have hdrop : (natToBytesBE 32 x ++ natToBytesBE 32 y).drop 32 = natToBytesBE 32 y :=
        List.drop_left' hxlen
      have hxdec : bytesToNatBE (natToBytesBE 32 x) = x :=
        bytesToNatBE_natToBytesBE 32 x (lt_trans hcurve.1 qField_lt_pow)
      have hydec : bytesToNatBE (natToBytesBE 32 y) = y :=
        bytesToNatBE_natToBytesBE 32 y (lt_trans hcurve.2.1 qField_lt_pow)
      rw [PublicKey.from_bytes_cons (4 : Fin 256) _ hrest]
      rw [dif_pos ⟨rfl, by rw [htake, hdrop, hxdec, hydec]; exact hcurve⟩]
      rfl
  · intro pk _ hcontra
    exact CurvePoint.noConfusion hcontra

/-- Witness for C4: two 1-byte buffers — one of them the SEC1 encoding of the
identity — are rejected identically without decoding, and the decoded
secp256k1 generator point is not the identity. -/
theorem C4_witness :
    PublicKey.from_bytes [(0 : Fin 256)] = .error .ValidationError ∧
    PublicKey.from_bytes [(0 : Fin 256)] = PublicKey.from_bytes [(2 : Fin 256)] ∧
    pkGen.toPoint ≠ CurvePoint.infinity :=
  ⟨(C4_pubkey_from_bytes_validation [(0 : Fin 256)]).1 (by decide),
   (C4_pubkey_from_bytes_validation [(0 : Fin 256)]).2.1 [(2 : Fin 256)] (by decide) (by decide),
   (C4_pubkey_from_bytes_validation pkGenBytes).2.2.2 pkGen (by decide)⟩

/-- Claim C6. Serialize–deserialize round-trip: for every valid private key,
`from_bytes (to_bytes sk)` succeeds and returns `sk`; for every valid public
key, `from_bytes (to_bytes pk)` succeeds and returns `pk`. -/
theorem C6_roundtrip_serialize (sk : PrivateKey) (pk : PublicKey) :
    PrivateKey.from_bytes (PrivateKey.to_bytes sk) = .ok sk ∧
    PublicKey.from_bytes (PublicKey.to_bytes pk) = .ok pk := by
  constructor
  · rw [PrivateKey.from_bytes_eq]
    have hlen : (PrivateKey.to_bytes sk).length = 32 := length_natToBytesBE 32 sk.val
    have hdec : bytesToNatBE (PrivateKey.to_bytes sk) = sk.val :=
      bytesToNatBE_natToBytesBE 32 sk.val (lt_trans sk.property.2 nOrder_lt_pow)
    rw [hdec, dif_pos ⟨hlen, sk.property⟩]
  · obtain ⟨⟨x, y⟩, hcurve⟩ := pk
    have hxlen := length_natToBytesBE 32 x
    have hylen := length_natToBytesBE 32 y
    have hrest : (natToBytesBE 32 x ++ natToBytesBE 32 y).length = 64 := by
      rw [List.length_append, hxlen, hylen]
    have htake : (natToBytesBE 32 x ++ natToBytesBE 32 y).take 32 = natToBytesBE 32 x :=
      List.take_left' hxlen
    have hdrop : (natToBytesBE 32 x ++ natToBytesBE 32 y).drop 32 = natToBytesBE 32 y :=
      List.drop_left' hxlen
    have hxdec : bytesToNatBE (natToBytesBE 32 x) = x :=
      bytesToNatBE_natToBytesBE 32 x (lt_trans hcurve.1 qField_lt_pow)
    have hydec : bytesToNatBE (natToBytesBE 32 y) = y :=
      bytesToNatBE_natToBytesBE 32 y (lt_trans hcurve.2.1 qField_lt_pow)
    show PublicKey.from_bytes ((4 : Fin 256) :: (natToBytesBE 32 x ++ natToBytesBE 32 y)) =
      .ok ⟨(x, y), hcurve⟩
    rw [PublicKey.from_bytes_cons (4 : Fin 256) _ hrest]
    simp only [htake, hdrop, hxdec, hydec]
    rw [dif_pos ⟨trivial, hcurve⟩]

/-- Claim C10. The serializations are canonical: every accepted buffer
re-serializes to itself (for private and public keys alike), so each key
value has exactly one accepted encoding — in particular no compressed or
otherwise alternative public-key form is ever accepted. -/
theorem C10_canonical_encodings (b b' : Bytes) :
    (∀ sk, PrivateKey.from_bytes b = .ok sk → PrivateKey.to_bytes sk = b) ∧
    (∀ pk, PublicKey.from_bytes b = .ok pk → PublicKey.to_bytes pk = b) ∧
    (∀ sk, PrivateKey.from_bytes b = .ok sk → PrivateKey.from_bytes b' = .ok sk → b = b') ∧
    (∀ pk, PublicKey.from_bytes b = .ok pk → PublicKey.from_bytes b' = .ok pk → b = b') := by
  have hprv : ∀ (c : Bytes) sk, PrivateKey.from_bytes c = .ok sk →
      PrivateKey.to_bytes sk = c := by
    intro c sk h
    obtain ⟨hlen, hval⟩ := PrivateKey.from_bytes_ok_inv c sk h
    unfold PrivateKey.to_bytes
    rw [hval]
    exact natToBytesBE_bytesToNatBE 32 c hlen
  have hpub : ∀ (c : Bytes) pk, PublicKey.from_bytes c = .ok pk →
      PublicKey.to_bytes pk = c := by
    intro c pk h
    obtain ⟨rest, hb, hrest, hx, hy⟩ := PublicKey.from_bytes_ok_spec c pk h
    have htake : (rest.take 32).length = 32 := by
      rw [List.length_take, hrest]; decide
    have hdrop : (rest.drop 32).length = 32 := by
      rw [List.length_drop, hrest]
    unfold PublicKey.to_bytes
    rw [hx, hy, natToBytesBE_bytesToNatBE 32 _ htake, natToBytesBE_bytesToNatBE 32 _ hdrop,
      List.take_append_drop, hb]
  exact ⟨hprv b, hpub b,
    fun sk h h' => (hprv b sk h).symm.trans (hprv b' sk h'),
    fun pk h h' => (hpub b pk h).symm.trans (hpub b' pk h')⟩

/-- Witness for C10 on the canonical encodings of the scalar `1` and of the
generator point. -/
theorem C10_witness :
    PrivateKey.to_bytes skOne = natToBytesBE 32 1 ∧
    PublicKey.to_bytes pkGen = pkGenBytes ∧
    natToBytesBE 32 1 = natToBytesBE 32 1 ∧
    pkGenBytes = pkGenBytes :=
  ⟨(C10_canonical_encodings (natToBytesBE 32 1) (natToBytesBE 32 1)).1 skOne (by decide),
   (C10_canonical_encodings pkGenBytes pkGenBytes).2.1 pkGen (by decide),
   (C10_canonical_encodings (natToBytesBE 32 1) (natToBytesBE 32 1)).2.2.1 skOne
     (by decide) (by decide),
   (C10_canonical_encodings pkGenBytes pkGenBytes).2.2.2 pkGen (by decide) (by decide)⟩
